import Mathlib

/-!
Verification development for the brick-kit repository: a retrieval-and-
instruction pipeline for parts-based 3D models (LEGO/LDraw), with a Next.js
frontend (`lego-builder.tsx`, `ldraw-viewer.tsx`, `pdf-download-button.tsx`),
a file-serving route for LDraw assets (`app/ldraw/[...key]/route.ts`,
reproduced in the repository README), and a Python backend described by the
specification (search strategy engine, candidate selector, download/cache
manager, instruction generator, document assembler, orchestrator).

Machine strings are modelled as Lean `String`/`List Char`; JavaScript
regular-expression pipelines are translated operation by operation.
Components whose backend sources are not part of the repository snapshot
are modelled from the specification and are marked as such in their doc
comments.
-/

namespace BrickKit

/-! ## Generic character and string helpers -/

/-- Boolean list-prefix test (used instead of library prefix predicates so
that all route-level string reasoning is by plain structural recursion). -/
def isPre : List Char → List Char → Bool
  | [], _ => true
  | _ :: _, [] => false
  | a :: as, b :: bs => a == b && isPre as bs

/-- String-level wrapper of `isPre`: does `s` start with `p`? -/
def strStarts (s p : String) : Bool := isPre p.data s.data

theorem isPre_append (p l : List Char) : isPre p (p ++ l) = true := by
  induction p with
  | nil => rfl
  | cons a as ih => simp [isPre, ih]

/-- JavaScript whitespace characters as matched by the regex class `\s`
(restricted to the ASCII range used by the embedding). -/
def isSpaceJS (c : Char) : Bool :=
  c == ' ' || c == '\t' || c == '\n' || c == '\r' || c == '\x0b' || c == '\x0c'

/-- JavaScript `String.prototype.trim`: strip leading and trailing
whitespace. -/
def jsTrim (s : String) : String :=
  ⟨(s.data.dropWhile isSpaceJS).rdropWhile isSpaceJS⟩

/-! ## C4 — prompt guard in `handleSubmit` (lego-builder.tsx) and the
Prompt Analyzer input contract -/

/-- The retrieval request issued by `handleSubmit` in `lego-builder.tsx`:
the body is built and `fetch` is called only inside `if (prompt.trim())`,
i.e. only when the trimmed prompt is non-empty (JavaScript string
truthiness).  The request body carries the raw prompt. -/
def handleSubmitRequest (prompt : String) : Option String :=
  if jsTrim prompt ≠ "" then some prompt else none

/-- Error taxonomy of the Prompt Analyzer input contract. -/
inductive AnalyzeError where
  | InvalidInput
deriving DecidableEq, Repr

/-- Modelled from the spec: the Prompt Analyzer (`src/prompt` analysis in
the backend, not part of the repository snapshot) accepts raw text that
must be non-empty after trimming and fails with `InvalidInput` otherwise
(§4.1).  The derived structured fields are abstracted away; only the input
validation matters for claim C4. -/
def analyzePrompt (raw : String) : Except AnalyzeError String :=
  if jsTrim raw = "" then Except.error AnalyzeError.InvalidInput
  else Except.ok raw

/-- C4: for every raw prompt whose trimmed form is empty, the submit
handler issues no request and the analyzer fails with `InvalidInput`;
conversely a request is only ever issued for prompts that are non-empty
after trimming. -/
theorem submit_guard_invalid_input (raw : String) :
    (jsTrim raw = "" →
      handleSubmitRequest raw = none ∧
      analyzePrompt raw = Except.error AnalyzeError.InvalidInput) ∧
    (∀ r, handleSubmitRequest raw = some r → jsTrim raw ≠ "") := by
  constructor
  · intro h
    constructor
    · simp [handleSubmitRequest, h]
    · simp [analyzePrompt, h]
  · intro r hr
    by_contra hc
    simp [handleSubmitRequest, hc] at hr

/-- Witness for C4 at the concrete inputs `"  "` (all-blank) and
`" car "` (non-blank after trim). -/
theorem submit_guard_invalid_input_witness :
    (handleSubmitRequest "  " = none ∧
      analyzePrompt "  " = Except.error AnalyzeError.InvalidInput) ∧
    jsTrim " car " ≠ "" :=
  ⟨(submit_guard_invalid_input "  ").1 (by decide),
   (submit_guard_invalid_input " car ").2 " car " (by decide)⟩

/-! ## C6 — scaling in the 3D viewer (`ldraw-viewer.tsx`, `LDrawModel`)

The viewer computes `maxDim = Math.max(size.x, size.y, size.z)` and, when
`maxDim > 0`, applies `group.scale.multiplyScalar(12 / maxDim)`.  The
JavaScript numbers are modelled as exact rationals; the counterexample
below is exact in binary floating point as well. -/

/-- The scalar applied by `LDrawModel` (ldraw-viewer.tsx lines 59-64):
`12 / maxDim` when the bounding box is non-degenerate, otherwise no
scaling. -/
def viewerScale (sx sy sz : ℚ) : ℚ :=
  let maxDim := max sx (max sy sz)
  if maxDim > 0 then 12 / maxDim else 1

/-- `group.scale.multiplyScalar(k)` starting from the identity scale
`(1,1,1)` yields the same factor in every dimension. -/
def viewerGroupScale (sx sy sz : ℚ) : ℚ × ℚ × ℚ :=
  (viewerScale sx sy sz, viewerScale sx sy sz, viewerScale sx sy sz)

/-- C6 counterexample: a model whose largest bounding-box dimension is 6
receives scale factor `12 / 6 = 2 > 1` — the viewer upscales small models,
so the claim that the applied scale factor never exceeds 1 is false for
the in-repository scaling code. -/
theorem viewerScale_upscales_small_model :
    viewerScale 6 3 2 = 2 ∧ (1 : ℚ) < viewerScale 6 3 2 := by
  constructor <;> norm_num [viewerScale]

/-- Modelled from the spec: the Document Assembler's step-image
processing (`pdf_instruction_service.py`, not part of the repository
snapshot).  Per §4.6 and PDF_INSTRUCTIONS_README "Image Processing", each
step image is scaled to fit the configured page dimensions while
preserving aspect ratio and is never upscaled beyond its original
resolution, only downscaled: the uniform factor is the fit ratio capped
at 1. -/
def imageScale (pageW pageH imgW imgH : ℚ) : ℚ :=
  min (min (pageW / imgW) (pageH / imgH)) 1

/-- The dimensions of a step image after scaling: the same uniform
factor is applied to both width and height. -/
def imageScaledDims (pageW pageH imgW imgH : ℚ) : ℚ × ℚ :=
  (imageScale pageW pageH imgW imgH * imgW,
   imageScale pageW pageH imgW imgH * imgH)

/-- C6 (amended): for every step image processed by the Document
Assembler, the applied scale factor is uniform in both dimensions, never
exceeds 1 (only ever downscaled, never upscaled beyond original
resolution), fits the page, and preserves the aspect ratio; for every
model loaded in the 3D viewer, the applied scale factor is uniform in
all dimensions (aspect ratio preserved) but equals `12 / maxDim`, which
is at most 1 exactly when the largest bounding-box dimension is at least
12 — models smaller than the 12-unit viewport target are upscaled, so
the "never exceeds 1" half of the claim holds for images but not for
viewer models. -/
theorem scale_uniform_characterization (pageW pageH imgW imgH sx sy sz : ℚ)
    (hpw : 0 < pageW) (hph : 0 < pageH) (hw : 0 < imgW) (hh : 0 < imgH)
    (hpos : 0 < max sx (max sy sz)) :
    imageScale pageW pageH imgW imgH ≤ 1 ∧
    imageScaledDims pageW pageH imgW imgH =
      (imageScale pageW pageH imgW imgH * imgW,
       imageScale pageW pageH imgW imgH * imgH) ∧
    (imageScale pageW pageH imgW imgH * imgW ≤ pageW ∧
     imageScale pageW pageH imgW imgH * imgH ≤ pageH) ∧
    (imageScaledDims pageW pageH imgW imgH).1 /
      (imageScaledDims pageW pageH imgW imgH).2 = imgW / imgH ∧
    (viewerGroupScale sx sy sz).1 = (viewerGroupScale sx sy sz).2.1 ∧
    (viewerGroupScale sx sy sz).2.1 = (viewerGroupScale sx sy sz).2.2 ∧
    viewerScale sx sy sz = 12 / max sx (max sy sz) ∧
    (viewerScale sx sy sz ≤ 1 ↔ 12 ≤ max sx (max sy sz)) := by
  have hk : 0 < imageScale pageW pageH imgW imgH :=
    lt_min (lt_min (div_pos hpw hw) (div_pos hph hh)) one_pos
  refine ⟨min_le_right _ 1, rfl, ⟨?_, ?_⟩, ?_, rfl, rfl, ?_, ?_⟩
  · have h1 : imageScale pageW pageH imgW imgH ≤ pageW / imgW :=
      le_trans (min_le_left _ _) (min_le_left _ _)
    exact (le_div_iff₀ hw).mp h1
  · have h2 : imageScale pageW pageH imgW imgH ≤ pageH / imgH :=
      le_trans (min_le_left _ _) (min_le_right _ _)
    exact (le_div_iff₀ hh).mp h2
  · show imageScale pageW pageH imgW imgH * imgW /
        (imageScale pageW pageH imgW imgH * imgH) = imgW / imgH
    rw [mul_div_mul_left _ _ (ne_of_gt hk)]
  · simp [viewerScale, hpos]
  · simp only [viewerScale, hpos, if_pos]
    rw [div_le_one hpos]

/-- Witness for the amended C6 at the README's default page size
`7.5 × 5.625` inches with a `1600 × 1200` step image (scale `3/640`,
downscaled) and a concrete viewer bounding box `(24, 6, 3)` (scale
`1/2`). -/
theorem scale_uniform_characterization_witness :
    imageScale (7.5 : ℚ) 5.625 1600 1200 ≤ 1 ∧
    (imageScale (7.5 : ℚ) 5.625 1600 1200 * 1600 ≤ (7.5 : ℚ) ∧
     imageScale (7.5 : ℚ) 5.625 1600 1200 * 1200 ≤ (5.625 : ℚ)) ∧
    (imageScaledDims (7.5 : ℚ) 5.625 1600 1200).1 /
      (imageScaledDims (7.5 : ℚ) 5.625 1600 1200).2 = (1600 : ℚ) / 1200 ∧
    viewerScale 24 6 3 = 12 / max (24 : ℚ) (max 6 3) ∧
    (viewerScale 24 6 3 ≤ 1 ↔ 12 ≤ max (24 : ℚ) (max 6 3)) := by
  have h := scale_uniform_characterization (7.5 : ℚ) 5.625 1600 1200 24 6 3
    (by norm_num) (by norm_num) (by norm_num) (by norm_num) (by norm_num)
  exact ⟨h.1, h.2.2.1, h.2.2.2.1, h.2.2.2.2.2.2.1, h.2.2.2.2.2.2.2⟩

/-! ## C7 — structured pipeline results and the frontend consumer -/

/-- Terminal outcome categories of one end-to-end request (§7). -/
inductive Outcome where
  | ok
  | noMatch
  | instrFailed
  | hard
deriving DecidableEq, Repr

/-- The externally visible result record of one request (§3
`PipelineResult`, §6 orchestrator→caller interface): success flag,
outcome tag, and error detail string. -/
structure PipelineResult where
  success : Bool
  outcome : Outcome
  errorDetails : String
deriving DecidableEq, Repr

/-- Modelled from the spec: the Pipeline Orchestrator (backend `agent.py`
and API layer, not part of the repository snapshot) always returns a
structured result distinguishing "no match found", "match found but
instructions failed" and "hard failure", and attaches a non-blank error
detail string on every unsuccessful path (§7 user-visible behavior). -/
def orchestratorResult (o : Outcome) (detail : String) : PipelineResult :=
  match o with
  | Outcome.ok => ⟨true, Outcome.ok, ""⟩
  | Outcome.noMatch => ⟨false, Outcome.noMatch, "No matching models found"⟩
  | Outcome.instrFailed =>
      ⟨false, Outcome.instrFailed,
        if detail = "" then "Instruction generation failed" else detail⟩
  | Outcome.hard =>
      ⟨false, Outcome.hard,
        if detail = "" then "Model retrieval failed" else detail⟩

/-- The frontend consumer (`handleSubmit` in lego-builder.tsx lines
100-131): it reads `data.success`; on failure it surfaces
`data.error_details || "Failed to generate model"` (JavaScript `||` on a
string falls through exactly on the empty string). -/
def frontendError (errorDetails : String) : String :=
  if errorDetails = "" then "Failed to generate model" else errorDetails

/-- C7: every request outcome yields a structured result whose outcome tag
distinguishes the three failure categories, the success flag is false
exactly for non-ok outcomes, every unsuccessful result carries a non-blank
error detail string, and the frontend consumer never displays a blank
failure message. -/
theorem pipeline_failure_distinguished (o : Outcome) (detail : String) :
    ((orchestratorResult o detail).success = false ↔ o ≠ Outcome.ok) ∧
    (orchestratorResult o detail).outcome = o ∧
    ((orchestratorResult o detail).success = false →
      (orchestratorResult o detail).errorDetails ≠ "") ∧
    (∀ s, frontendError s ≠ "") := by
  refine ⟨?_, ?_, ?_, ?_⟩
  · cases o <;> simp [orchestratorResult]
  · cases o <;> simp [orchestratorResult]
  · cases o <;> intro h <;> simp [orchestratorResult] at h ⊢ <;>
      split <;> simp_all
  · intro s
    by_cases h : s = "" <;> simp [frontendError, h]

/-- Witness for C7 at the hard-failure outcome with a blank incoming
detail string: the result is unsuccessful yet its detail string and the
frontend message are non-blank. -/
theorem pipeline_failure_distinguished_witness :
    (orchestratorResult Outcome.hard "").success = false ∧
    (orchestratorResult Outcome.hard "").errorDetails ≠ "" ∧
    frontendError "" ≠ "" := by
  have h := pipeline_failure_distinguished Outcome.hard ""
  exact ⟨by decide, h.2.2.1 (by decide), h.2.2.2 ""⟩

/-! ## C1 — Candidate Selector -/

/-- A repository search result considered for selection (§3
`CandidateModel`): repository identifier (set number), display name and
relevance score.  Scores are modelled as exact rationals. -/
structure CandidateModel where
  id : String
  name : String
  score : ℚ
deriving DecidableEq, Repr

/-- The chosen candidate plus rationale and a flag recording whether the
explicit fallback policy was used (§3 `SelectionResult`,
§7 `SelectionFallbackUsed`). -/
structure SelectionResult where
  chosen : CandidateModel
  rationale : String
  fallbackUsed : Bool
deriving DecidableEq, Repr

/-- Selection error taxonomy (§4.3). -/
inductive SelectError where
  | NoCandidates
deriving DecidableEq, Repr

/-- Modelled from the spec: the Candidate Selector (backend `agent.py`
selection step, not part of the repository snapshot).  The external
reasoning service's reply is abstracted as `none` (malformed /
unparseable, also covering service failure after retries) or
`some (chosenId, rationale)`.  A reply naming an identifier outside the
candidate set, like a malformed reply, falls back to the highest-ranked
candidate (the head of the ranked list) with the fallback recorded
(§4.3). -/
def selectCandidate (cands : List CandidateModel)
    (resp : Option (String × String)) : Except SelectError SelectionResult :=
  match cands with
  | [] => Except.error SelectError.NoCandidates
  | top :: _ =>
    match resp with
    | some (cid, rat) =>
      match cands.find? (fun c => c.id == cid) with
      | some c => Except.ok ⟨c, rat, false⟩
      | none => Except.ok ⟨top, "fallback: response named unknown id", true⟩
    | none => Except.ok ⟨top, "fallback: malformed response", true⟩

/-- Does the external reply fail validation against the candidate set
(malformed, or naming an identifier not in the set)? -/
def badResponse (cands : List CandidateModel)
    (resp : Option (String × String)) : Bool :=
  match resp with
  | none => true
  | some (cid, _) => (cands.find? (fun c => c.id == cid)).isNone

/-- C1: for every non-empty candidate list the selector terminates with a
`SelectionResult` whose chosen candidate is a member of the input list
(never fabricated); when the external response is malformed or names an
identifier outside the set, the chosen candidate is the highest-ranked
input candidate and the fallback is recorded. -/
theorem selectCandidate_member_of_input (cands : List CandidateModel)
    (resp : Option (String × String)) (h : cands ≠ []) :
    ∃ r, selectCandidate cands resp = Except.ok r ∧
      r.chosen ∈ cands ∧
      (badResponse cands resp = true →
        r.chosen = cands.head h ∧ r.fallbackUsed = true) := by
  match cands with
  | [] => exact absurd rfl h
  | top :: rest =>
    match resp with
    | none =>
      exact ⟨⟨top, "fallback: malformed response", true⟩, rfl,
        List.mem_cons_self _ _, fun _ => ⟨rfl, rfl⟩⟩
    | some (cid, rat) =>
      cases hf : (top :: rest).find? (fun c => c.id == cid) with
      | some c =>
        refine ⟨⟨c, rat, false⟩, ?_, List.mem_of_find?_eq_some hf, ?_⟩
        · simp [selectCandidate, hf]
        · intro hb
          simp [badResponse, hf] at hb
      | none =>
        refine ⟨⟨top, "fallback: response named unknown id", true⟩, ?_,
          List.mem_cons_self _ _, fun _ => ⟨rfl, rfl⟩⟩
        simp [selectCandidate, hf]

/-- Witness for C1: a two-candidate set and a reply naming an identifier
outside the set; the selector returns the highest-ranked candidate with
the fallback recorded. -/
theorem selectCandidate_member_of_input_witness :
    ∃ r, selectCandidate
        [⟨"8880-1", "Super Car", 9⟩, ⟨"1477-1", "Red Race Car", 7⟩]
        (some ("9999-9", "made up")) = Except.ok r ∧
      r.chosen ∈ [(⟨"8880-1", "Super Car", 9⟩ : CandidateModel),
        ⟨"1477-1", "Red Race Car", 7⟩] ∧
      (badResponse
          [⟨"8880-1", "Super Car", 9⟩, ⟨"1477-1", "Red Race Car", 7⟩]
          (some ("9999-9", "made up")) = true →
        r.chosen = (⟨"8880-1", "Super Car", 9⟩ : CandidateModel) ∧
        r.fallbackUsed = true) :=
  selectCandidate_member_of_input
    [⟨"8880-1", "Super Car", 9⟩, ⟨"1477-1", "Red Race Car", 7⟩]
    (some ("9999-9", "made up")) (by decide)

/-! ## C5 — Document Assembler -/

/-- A step image artifact: its step index and whether the image asset is
readable (§3 `StepImage`, §4.6 failure policy for unreadable assets). -/
structure StepImage where
  idx : Nat
  valid : Bool
deriving DecidableEq, Repr

/-- One page of the assembled document: either a step page or the
trailing parts-table page. -/
inductive Page where
  | step (s : StepImage)
  | table
deriving DecidableEq, Repr

/-- Assembly error taxonomy (§4.6, §7). -/
inductive AsmError where
  | EmptyDocument
deriving DecidableEq, Repr

/-- Modelled from the spec: the Document Assembler
(`pdf_instruction_service.py`, not part of the repository snapshot)
produces one page per readable step image in step order, skipping
unreadable ones, plus a trailing parts-table page; pages are numbered
contiguously starting at 1; if no step image is usable, assembly fails
with `EmptyDocument` (§4.6, PDF_INSTRUCTIONS_README "Step Pages" /
"BOM Table"). -/
def assemble (steps : List StepImage) :
    Except AsmError (List (Nat × Page)) :=
  let good := steps.filter (fun s => s.valid)
  if good.isEmpty then Except.error AsmError.EmptyDocument
  else Except.ok (List.enumFrom 1 (good.map Page.step ++ [Page.table]))

/-- C5: for every instruction set whose step images are all valid (and
non-empty, as required for a document to exist at all), the assembled
document has exactly `N` step pages plus one trailing parts-table page,
the pages appear in step-index order, and the page numbering is the
contiguous range starting at 1. -/
theorem assemble_pages_spec (steps : List StepImage)
    (hv : ∀ s ∈ steps, s.valid = true) (hne : steps ≠ []) :
    ∃ pages, assemble steps = Except.ok pages ∧
      pages.length = steps.length + 1 ∧
      pages.map Prod.fst = List.range' 1 (steps.length + 1) ∧
      (∀ i s, steps[i]? = some s → pages[i]? = some (i + 1, Page.step s)) ∧
      pages[steps.length]? = some (steps.length + 1, Page.table) := by
  have hfil : steps.filter (fun s => s.valid) = steps :=
    List.filter_eq_self.mpr hv
  have hemp : steps.isEmpty = false := by
    simp [List.isEmpty_iff, hne]
  refine ⟨List.enumFrom 1 (steps.map Page.step ++ [Page.table]), ?_, ?_, ?_, ?_, ?_⟩
  · simp [assemble, hfil, hemp]
  · simp [List.enumFrom_length]
  · rw [List.enumFrom_map_fst]
    simp
  · intro i s hs
    have hi : i < steps.length := by
      by_contra hge
      rw [List.getElem?_eq_none (by omega)] at hs
      exact Option.noConfusion hs
    rw [List.getElem?_enumFrom, List.getElem?_append]
    rw [List.getElem?_eq_getElem hi] at hs
    simp [hi, Nat.add_comm, Option.some.inj hs]
  · rw [List.getElem?_enumFrom, List.getElem?_append]
    simp [Nat.add_comm]

/-- Witness for C5 at a concrete three-step instruction set. -/
theorem assemble_pages_spec_witness :
    ∃ pages, assemble [⟨1, true⟩, ⟨2, true⟩, ⟨3, true⟩] = Except.ok pages ∧
      pages.length = 4 ∧
      pages.map Prod.fst = List.range' 1 4 ∧
      pages[3]? = some (4, Page.table) := by
  obtain ⟨pages, h1, h2, h3, _, h5⟩ :=
    assemble_pages_spec [⟨1, true⟩, ⟨2, true⟩, ⟨3, true⟩]
      (by decide) (by decide)
  exact ⟨pages, h1, h2, h3, h5⟩

/-! ## C3 — Download/Cache Manager: single in-flight download per
fingerprint

The manager's code is not part of the repository snapshot; its
fingerprint-keyed synchronization is modelled from §4.4/§5 as an
interleaving transition system for one fingerprint (distinct fingerprints
are independent by the per-fingerprint-lock design).  Callers and files
are abstracted as natural numbers.  An `acquire` event is a caller's call
reaching the manager; a `finish` event is the single in-flight network
download completing with a file. -/

/-- State of the cache manager for one fingerprint. -/
structure DLState where
  downloading : Bool
  waiters : List Nat
  cached : Option Nat
  started : Nat
  returns : List (Nat × Nat)
deriving DecidableEq, Repr

/-- Events of the per-fingerprint cache protocol. -/
inductive DLEvent where
  | acquire (caller : Nat)
  | finish (file : Nat)
deriving DecidableEq, Repr

/-- Modelled from the spec: one step of the Download/Cache Manager
(§4.4).  A cache hit returns immediately; a miss with no in-flight
download starts the single download; a miss during an in-flight download
joins the waiters; download completion commits the file and answers every
waiter with it. -/
def dlStep (s : DLState) (e : DLEvent) : DLState :=
  match e with
  | DLEvent.acquire c =>
    match s.cached with
    | some f => { s with returns := (c, f) :: s.returns }
    | none =>
      if s.downloading then { s with waiters := c :: s.waiters }
      else { s with downloading := true, waiters := [c],
                    started := s.started + 1 }
  | DLEvent.finish f =>
    if s.downloading then
      { s with downloading := false, cached := some f, waiters := [],
               returns := s.waiters.map (fun c => (c, f)) ++ s.returns }
    else s

/-- Initial state: nothing cached, no download in flight. -/
def dlInit : DLState := ⟨false, [], none, 0, []⟩

/-- Run a whole event trace from the initial state. -/
def dlRun (events : List DLEvent) : DLState := events.foldl dlStep dlInit

/-- Protocol invariant: at most one download ever starts; a download in
flight, or a committed cache entry, accounts for exactly that one
download; a fingerprint that is neither cached nor downloading has never
downloaded; and every answered call references the committed cache
file. -/
def dlInv (s : DLState) : Prop :=
  s.started ≤ 1 ∧
  (s.downloading = true → s.cached = none ∧ s.started = 1) ∧
  (s.cached = none → s.downloading = false → s.started = 0) ∧
  (∀ f, s.cached = some f → s.started = 1 ∧ s.downloading = false) ∧
  (∀ p ∈ s.returns, s.cached = some p.2)

theorem dlInv_init : dlInv dlInit := by
  refine ⟨by simp [dlInit], by simp [dlInit], by simp [dlInit],
    by simp [dlInit], by simp [dlInit]⟩

theorem dlInv_step (s : DLState) (e : DLEvent) (h : dlInv s) :
    dlInv (dlStep s e) := by
  obtain ⟨h1, h2, h3, h4, h5⟩ := h
  cases e with
  | acquire c =>
    cases hc : s.cached with
    | some f =>
      refine ⟨by simpa [dlStep, hc] using h1, ?_, ?_, ?_, ?_⟩
      · intro hd
        simp [dlStep, hc] at hd
        rw [(h2 hd).1] at hc
        exact Option.noConfusion hc
      · intro hcn
        simp [dlStep, hc] at hcn
      · intro g hg
        simp [dlStep, hc] at hg ⊢
        exact h4 f hc
      · intro p hp
        simp [dlStep, hc] at hp ⊢
        cases hp with
        | inl hpe => rw [hpe]
        | inr hmem =>
          have := h5 p hmem
          rw [hc] at this
          exact Option.some.inj this
    | none =>
      cases hd : s.downloading with
      | true =>
        refine ⟨by simpa [dlStep, hc, hd] using h1, ?_, ?_, ?_, ?_⟩
        · intro _
          simpa [dlStep, hc, hd] using (h2 hd).2
        · intro _ hdd
          simp [dlStep, hc, hd] at hdd
        · intro g hg
          simp [dlStep, hc, hd] at hg
        · intro p hp
          simp [dlStep, hc, hd] at hp
          have := h5 p hp
          rw [hc] at this
          exact Option.noConfusion this
      | false =>
        have h0 : s.started = 0 := h3 hc hd
        refine ⟨by simp [dlStep, hc, hd, h0], ?_, ?_, ?_, ?_⟩
        · intro _
          simp [dlStep, hc, hd, h0]
        · intro _ hdd
          simp [dlStep, hc, hd] at hdd
        · intro g hg
          simp [dlStep, hc, hd] at hg
        · intro p hp
          simp [dlStep, hc, hd] at hp
          have := h5 p hp
          rw [hc] at this
          exact Option.noConfusion this
  | finish f =>
    cases hd : s.downloading with
    | true =>
      have hcn : s.cached = none := (h2 hd).1
      have hs1 : s.started = 1 := (h2 hd).2
      refine ⟨by simpa [dlStep, hd] using h1, ?_, ?_, ?_, ?_⟩
      · intro hdd
        simp [dlStep, hd] at hdd
      · intro hpair
        simp [dlStep, hd] at hpair
      · intro g hg
        simp [dlStep, hd, hs1]
      · intro p hp
        simp [dlStep, hd] at hp ⊢
        cases hp with
        | inl hw =>
          obtain ⟨a, _, hap⟩ := hw
          simp [← hap]
        | inr hold =>
          have := h5 p hold
          rw [hcn] at this
          exact Option.noConfusion this
    | false =>
      simpa [dlStep, hd] using ⟨h1, h2, h3, h4, h5⟩

theorem dlInv_run (events : List DLEvent) : dlInv (dlRun events) := by
  have hall : ∀ (l : List DLEvent) (s : DLState),
      dlInv s → dlInv (l.foldl dlStep s) := by
    intro l
    induction l with
    | nil => intro s hs; exact hs
    | cons e t ih => intro s hs; exact ih (dlStep s e) (dlInv_step s e hs)
  exact hall events dlInit dlInv_init

/-- C3: over every interleaving of `acquire` calls and download
completions for one fingerprint, at most one underlying download is ever
started, all answered calls reference the same file, and as soon as any
call has been answered exactly one download was performed — concurrent
callers for the same fingerprint share the single download. -/
theorem acquire_single_download (events : List DLEvent) :
    (dlRun events).started ≤ 1 ∧
    (∀ p ∈ (dlRun events).returns, ∀ q ∈ (dlRun events).returns,
      p.2 = q.2) ∧
    ((dlRun events).returns ≠ [] → (dlRun events).started = 1) := by
  obtain ⟨h1, _, _, h4, h5⟩ := dlInv_run events
  refine ⟨h1, ?_, ?_⟩
  · intro p hp q hq
    have hpc := h5 p hp
    have hqc := h5 q hq
    exact Option.some.inj (hpc.symm.trans hqc)
  · intro hne
    match hr : (dlRun events).returns with
    | [] => exact absurd hr hne
    | p :: _ =>
      exact (h4 p.2 (h5 p (by rw [hr]; exact List.mem_cons_self _ _))).1

/-- Witness for C3: three concurrent acquires with the download finishing
in between; exactly one download starts and all three calls are answered
with the same file. -/
theorem acquire_single_download_witness :
    (dlRun [DLEvent.acquire 1, DLEvent.acquire 2, DLEvent.finish 9,
      DLEvent.acquire 3]).started ≤ 1 ∧
    (∀ p ∈ (dlRun [DLEvent.acquire 1, DLEvent.acquire 2, DLEvent.finish 9,
        DLEvent.acquire 3]).returns,
      ∀ q ∈ (dlRun [DLEvent.acquire 1, DLEvent.acquire 2, DLEvent.finish 9,
        DLEvent.acquire 3]).returns, p.2 = q.2) ∧
    (dlRun [DLEvent.acquire 1, DLEvent.acquire 2, DLEvent.finish 9,
      DLEvent.acquire 3]).started = 1 :=
  ⟨(acquire_single_download _).1, (acquire_single_download _).2.1,
   (acquire_single_download [DLEvent.acquire 1, DLEvent.acquire 2,
      DLEvent.finish 9, DLEvent.acquire 3]).2.2 (by decide)⟩

/-! ## C2 — Search Strategy Engine: de-duplicating merge

The engine's code is not part of the repository snapshot; the merge
policy is modelled from §4.2: candidates from the strategies are
considered in attempt order (Direct, then Semantic, then Refined), merged
by identifier keeping the highest relevance score seen, with ties broken
in favour of the earlier strategy (replacement only on a strictly higher
score). -/

/-- The candidate kept for one identifier: fold over the later
occurrences, replacing the current best only on a strictly higher score,
so that the earliest occurrence wins ties. -/
def bestSame (c : CandidateModel) : List CandidateModel → CandidateModel
  | [] => c
  | d :: t => if c.score < d.score then bestSame d t else bestSame c t

/-- Fuel-indexed merge worker (structural recursion on the fuel, which
the wrapper instantiates with the list length so that the definition is
kernel-computable). -/
def mergeAux : Nat → List CandidateModel → List CandidateModel
  | _, [] => []
  | 0, _ :: _ => []
  | n + 1, c :: cs =>
    bestSame c (cs.filter (fun d => d.id == c.id)) ::
      mergeAux n (cs.filter (fun d => !(d.id == c.id)))

/-- Modelled from the spec: the §4.2 merge policy.  Candidates are
processed in strategy-attempt order; each identifier appears once,
carrying the first occurrence with the highest score seen for that
identifier; output order is first-occurrence (rank) order. -/
def mergeCandidates (l : List CandidateModel) : List CandidateModel :=
  mergeAux l.length l

theorem mergeAux_fuel : ∀ (n m : Nat) (l : List CandidateModel),
    l.length ≤ n → l.length ≤ m → mergeAux n l = mergeAux m l := by
  intro n
  induction n with
  | zero =>
    intro m l hn _
    have hnil : l = [] := List.length_eq_zero.mp (Nat.le_zero.mp hn)
    subst hnil
    cases m <;> rfl
  | succ n ihn =>
    intro m l hn hm
    match l, m with
    | [], m => cases m <;> rfl
    | c :: cs, 0 => simp at hm
    | c :: cs, m + 1 =>
      have hn' : cs.length ≤ n := by
        simp only [List.length_cons] at hn
        omega
      have hm' : cs.length ≤ m := by
        simp only [List.length_cons] at hm
        omega
      simp only [mergeAux]
      congr 1
      exact ihn (m) _ (le_trans (List.length_filter_le _ _) hn')
        (le_trans (List.length_filter_le _ _) hm')

theorem mergeCandidates_cons (c : CandidateModel) (cs : List CandidateModel) :
    mergeCandidates (c :: cs) =
      bestSame c (cs.filter (fun d => d.id == c.id)) ::
        mergeCandidates (cs.filter (fun d => !(d.id == c.id))) := by
  show mergeAux (cs.length + 1) (c :: cs) = _
  simp only [mergeAux]
  congr 1
  exact mergeAux_fuel cs.length _ _ (List.length_filter_le _ _) le_rfl

theorem bestSame_mem (rest : List CandidateModel) :
    ∀ c, bestSame c rest ∈ c :: rest := by
  induction rest with
  | nil => intro c; simp [bestSame]
  | cons d t ih =>
    intro c
    by_cases h : c.score < d.score
    · have := ih d
      simp only [bestSame, if_pos h]
      exact List.mem_cons_of_mem _ this
    · have := ih c
      simp only [bestSame, if_neg h]
      rcases List.mem_cons.mp this with hc | ht
      · exact List.mem_cons.mpr (Or.inl hc)
      · exact List.mem_cons_of_mem _ (List.mem_cons_of_mem _ ht)

theorem bestSame_base_le (rest : List CandidateModel) :
    ∀ c, c.score ≤ (bestSame c rest).score := by
  induction rest with
  | nil => intro c; simp [bestSame]
  | cons d t ih =>
    intro c
    by_cases h : c.score < d.score
    · simp only [bestSame, if_pos h]
      exact le_of_lt (lt_of_lt_of_le h (ih d))
    · simp only [bestSame, if_neg h]
      exact ih c

theorem bestSame_max (rest : List CandidateModel) :
    ∀ c d, d ∈ c :: rest → d.score ≤ (bestSame c rest).score := by
  induction rest with
  | nil =>
    intro c d hd
    simp at hd
    simp [bestSame, hd]
  | cons e t ih =>
    intro c d hd
    by_cases h : c.score < e.score
    · simp only [bestSame, if_pos h]
      rcases List.mem_cons.mp hd with hc | he
      · exact hc ▸ le_of_lt (lt_of_lt_of_le h (bestSame_base_le t e))
      · exact ih e d he
    · simp only [bestSame, if_neg h]
      rcases List.mem_cons.mp hd with hc | he
      · exact ih c d (hc ▸ List.mem_cons_self _ _)
      · rcases List.mem_cons.mp he with hde | hdt
        · exact hde ▸ le_trans (not_lt.mp h) (bestSame_base_le t c)
        · exact ih c d (List.mem_cons_of_mem _ hdt)

theorem bestSame_first (rest : List CandidateModel) :
    ∀ c, ∃ l₁ l₂, c :: rest = l₁ ++ bestSame c rest :: l₂ ∧
      ∀ x ∈ l₁, x.score < (bestSame c rest).score := by
  induction rest with
  | nil =>
    intro c
    exact ⟨[], [], by simp [bestSame], by simp⟩
  | cons e t ih =>
    intro c
    by_cases h : c.score < e.score
    · obtain ⟨l₁, l₂, heq, hlt⟩ := ih e
      refine ⟨c :: l₁, l₂, ?_, ?_⟩
      · simp only [bestSame, if_pos h]
        rw [List.cons_append, ← heq]
      · intro x hx
        simp only [bestSame, if_pos h]
        rcases List.mem_cons.mp hx with hxc | hxl
        · exact hxc ▸ lt_of_lt_of_le h (bestSame_base_le t e)
        · exact hlt x hxl
    · obtain ⟨l₁, l₂, heq, hlt⟩ := ih c
      match l₁, heq with
      | [], heq =>
        simp only [List.nil_append] at heq
        refine ⟨[], e :: t, ?_, by simp⟩
        simp only [bestSame, if_neg h]
        rw [List.nil_append]
        have hb : bestSame c t = c := (List.cons.injEq _ _ _ _).mp heq |>.1.symm
        rw [hb]
      | c' :: l₁', heq =>
        have hc' : c' = c := ((List.cons.injEq _ _ _ _).mp heq).1.symm
        have ht : t = l₁' ++ bestSame c t :: l₂ :=
          ((List.cons.injEq _ _ _ _).mp heq).2
        refine ⟨c :: e :: l₁', l₂, ?_, ?_⟩
        · simp only [bestSame, if_neg h]
          rw [List.cons_append, List.cons_append, ← ht]
        · intro x hx
          simp only [bestSame, if_neg h]
          have hcb : c.score < (bestSame c t).score := by
            have := hlt c' (List.mem_cons_self _ _)
            rw [hc'] at this
            exact this
          rcases List.mem_cons.mp hx with hxc | hxr
          · exact hxc ▸ hcb
          · rcases List.mem_cons.mp hxr with hxe | hxl
            · exact hxe ▸ lt_of_le_of_lt (not_lt.mp h) hcb
            · exact hlt x (hc' ▸ List.mem_cons_of_mem _ hxl)

theorem bestSame_id (c : CandidateModel) (rest : List CandidateModel)
    (hall : ∀ d ∈ rest, d.id = c.id) : (bestSame c rest).id = c.id := by
  rcases List.mem_cons.mp (bestSame_mem rest c) with hc | hr
  · rw [hc]
  · exact hall _ hr

/-- The conjunction of all merge guarantees for one input list (in
strategy-attempt order): no duplicate identifiers, no fabricated
candidates, every input identifier represented, the kept score is the
maximum seen for its identifier, and the kept candidate is the first
input candidate attaining that maximum (strategy-attempt tie-break). -/
def MergeOK (l : List CandidateModel) : Prop :=
  ((mergeCandidates l).map (fun c => c.id)).Nodup ∧
  (∀ c ∈ mergeCandidates l, c ∈ l) ∧
  (∀ d ∈ l, ∃ c ∈ mergeCandidates l, c.id = d.id) ∧
  (∀ c ∈ mergeCandidates l, ∀ d ∈ l, d.id = c.id → d.score ≤ c.score) ∧
  (∀ c ∈ mergeCandidates l,
    (l.filter (fun d => d.id == c.id && d.score == c.score)).head? = some c)

theorem merge_ok_aux : ∀ (n : Nat) (l : List CandidateModel),
    l.length ≤ n → MergeOK l := by
  intro n
  induction n with
  | zero =>
    intro l hl
    have : l = [] := List.length_eq_zero.mp (Nat.le_zero.mp hl)
    subst this
    refine ⟨by simp [mergeCandidates, mergeAux], by simp [mergeCandidates, mergeAux],
      by simp, by simp [mergeCandidates, mergeAux], by simp [mergeCandidates, mergeAux]⟩
  | succ n ih =>
    intro l hl
    match l with
    | [] =>
      refine ⟨by simp [mergeCandidates, mergeAux], by simp [mergeCandidates, mergeAux],
        by simp, by simp [mergeCandidates, mergeAux], by simp [mergeCandidates, mergeAux]⟩
    | c :: cs =>
      have hlen : cs.length ≤ n := by
        simp only [List.length_cons] at hl
        omega
      have hlenf : (cs.filter (fun d => !(d.id == c.id))).length ≤ n :=
        le_trans (List.length_filter_le _ _) hlen
      obtain ⟨ihn, ihm, ihp, ihmax, ihfirst⟩ := ih _ hlenf
      have hsame : ∀ d ∈ cs.filter (fun d => d.id == c.id), d.id = c.id := by
        intro d hd
        simpa using List.of_mem_filter hd
      have hbid : (bestSame c (cs.filter (fun d => d.id == c.id))).id = c.id :=
        bestSame_id c _ hsame
      have hbmem : bestSame c (cs.filter (fun d => d.id == c.id)) ∈ c :: cs := by
        rcases List.mem_cons.mp
            (bestSame_mem (cs.filter (fun d => d.id == c.id)) c) with h1 | h2
        · rw [h1]
          exact List.mem_cons_self _ _
        · exact List.mem_cons_of_mem _ (List.mem_of_mem_filter h2)
      have heq := mergeCandidates_cons c cs
      have htailid : ∀ x ∈ mergeCandidates (cs.filter (fun d => !(d.id == c.id))),
          x.id ≠ c.id := by
        intro x hx
        simpa using List.of_mem_filter (ihm x hx)
      have hmemiff : ∀ x, x ∈ mergeCandidates (c :: cs) ↔
          (x = bestSame c (cs.filter (fun d => d.id == c.id)) ∨
            x ∈ mergeCandidates (cs.filter (fun d => !(d.id == c.id)))) := by
        intro x
        rw [heq]
        exact List.mem_cons
      refine ⟨?_, ?_, ?_, ?_, ?_⟩
      · rw [heq]
        simp only [List.map_cons, List.nodup_cons]
        refine ⟨?_, ihn⟩
        intro hmem
        obtain ⟨x, hx, hxid⟩ := List.mem_map.mp hmem
        rw [hbid] at hxid
        exact htailid x hx hxid
      · intro x hx
        rcases (hmemiff x).mp hx with h1 | h2
        · rw [h1]
          exact hbmem
        · exact List.mem_cons_of_mem _ (List.mem_of_mem_filter (ihm x h2))
      · intro d hd
        by_cases hid : d.id = c.id
        · refine ⟨bestSame c (cs.filter (fun e => e.id == c.id)),
            (hmemiff _).mpr (Or.inl rfl), ?_⟩
          rw [hbid, hid]
        · have hdcs : d ∈ cs := by
            rcases List.mem_cons.mp hd with h1 | h2
            · exact absurd (congrArg CandidateModel.id h1) hid
            · exact h2
          have hdf : d ∈ cs.filter (fun e => !(e.id == c.id)) :=
            List.mem_filter.mpr ⟨hdcs, by simpa using hid⟩
          obtain ⟨x, hx, hxd⟩ := ihp d hdf
          exact ⟨x, (hmemiff x).mpr (Or.inr hx), hxd⟩
      · intro x hx d hd hdid
        rcases (hmemiff x).mp hx with h1 | h2
        · subst h1
          rw [hbid] at hdid
          have hdmem : d ∈ c :: cs.filter (fun e => e.id == c.id) := by
            rcases List.mem_cons.mp hd with hdc | hdcs
            · rw [hdc]
              exact List.mem_cons_self _ _
            · exact List.mem_cons_of_mem _
                (List.mem_filter.mpr ⟨hdcs, by simpa using hdid⟩)
          exact bestSame_max _ c d hdmem
        · have hxid : x.id ≠ c.id := htailid x h2
          have hdcs : d ∈ cs := by
            rcases List.mem_cons.mp hd with hdc | h
            · exfalso
              apply hxid
              rw [← hdid, hdc]
            · exact h
          have hdne : d.id ≠ c.id := by
            rw [hdid]
            exact hxid
          have hdf : d ∈ cs.filter (fun e => !(e.id == c.id)) :=
            List.mem_filter.mpr ⟨hdcs, by simpa using hdne⟩
          exact ihmax x h2 d hdf hdid
      · intro x hx
        rcases (hmemiff x).mp hx with h1 | h2
        · subst h1
          obtain ⟨l₁, l₂, hsplit, hless⟩ :=
            bestSame_first (cs.filter (fun d => d.id == c.id)) c
          have hcs : cs.filter
              (fun d => d.id == (bestSame c (cs.filter (fun e => e.id == c.id))).id
                && d.score == (bestSame c (cs.filter (fun e => e.id == c.id))).score)
              = (cs.filter (fun e => e.id == c.id)).filter
              (fun d => d.id == (bestSame c (cs.filter (fun e => e.id == c.id))).id
                && d.score == (bestSame c (cs.filter (fun e => e.id == c.id))).score) := by
            rw [List.filter_filter]
            apply List.filter_congr
            intro a _
            by_cases hida : a.id = c.id
            · simp [hida, hbid]
            · have h1 : (a.id ==
                  (bestSame c (cs.filter (fun e => e.id == c.id))).id) = false := by
                rw [hbid]
                exact beq_eq_false_iff_ne.mpr hida
              have h2 : (a.id == c.id) = false := beq_eq_false_iff_ne.mpr hida
              simp [h1, h2]
          have hcons : (c :: cs).filter
              (fun d => d.id == (bestSame c (cs.filter (fun e => e.id == c.id))).id
                && d.score == (bestSame c (cs.filter (fun e => e.id == c.id))).score)
              = (c :: cs.filter (fun e => e.id == c.id)).filter
              (fun d => d.id == (bestSame c (cs.filter (fun e => e.id == c.id))).id
                && d.score == (bestSame c (cs.filter (fun e => e.id == c.id))).score) := by
            rw [List.filter_cons, List.filter_cons, hcs]
          rw [hcons, hsplit, List.filter_append]
          have hl1 : l₁.filter
              (fun d => d.id == (bestSame c (cs.filter (fun e => e.id == c.id))).id
                && d.score == (bestSame c (cs.filter (fun e => e.id == c.id))).score)
              = [] := by
            apply List.filter_eq_nil_iff.mpr
            intro a ha
            have hlt := hless a ha
            simp only [Bool.and_eq_true, beq_iff_eq, not_and]
            intro _
            exact ne_of_lt hlt
          rw [hl1, List.nil_append, List.filter_cons]
          simp
        · have hxid : x.id ≠ c.id := htailid x h2
          have ihf := ihfirst x h2
          have hstep : (c :: cs).filter
              (fun d => d.id == x.id && d.score == x.score)
              = (cs.filter (fun e => !(e.id == c.id))).filter
              (fun d => d.id == x.id && d.score == x.score) := by
            rw [List.filter_cons]
            have hcfail : (c.id == x.id && c.score == x.score) = false := by
              have h1 : (c.id == x.id) = false :=
                beq_eq_false_iff_ne.mpr (fun hc => hxid hc.symm)
              simp [h1]
            rw [hcfail]
            rw [if_neg (by decide)]
            rw [List.filter_filter]
            apply List.filter_congr
            intro a _
            by_cases hida : a.id = x.id
            · have hanec : (a.id == c.id) = false := by
                refine beq_eq_false_iff_ne.mpr ?_
                rw [hida]
                exact hxid
              simp [hanec]
            · have h1 : (a.id == x.id) = false := beq_eq_false_iff_ne.mpr hida
              simp [h1]
          rw [hstep]
          exact ihf

/-- C2: for every combined strategy output (Direct, then Semantic, then
Refined, concatenated in attempt order), the merged candidate sequence
contains no two candidates with the same identifier; every identifier
that any strategy produced appears exactly once, as the first input
candidate (in strategy-attempt order) carrying the highest relevance
score seen for that identifier — so ties are broken Direct before
Semantic before Refined, and no candidate is fabricated. -/
theorem mergeCandidates_spec (direct semantic refined : List CandidateModel) :
    ((mergeCandidates (direct ++ semantic ++ refined)).map
      (fun c => c.id)).Nodup ∧
    (∀ c ∈ mergeCandidates (direct ++ semantic ++ refined),
      c ∈ direct ++ semantic ++ refined) ∧
    (∀ d ∈ direct ++ semantic ++ refined,
      ∃ c ∈ mergeCandidates (direct ++ semantic ++ refined), c.id = d.id) ∧
    (∀ c ∈ mergeCandidates (direct ++ semantic ++ refined),
      ∀ d ∈ direct ++ semantic ++ refined, d.id = c.id → d.score ≤ c.score) ∧
    (∀ c ∈ mergeCandidates (direct ++ semantic ++ refined),
      ((direct ++ semantic ++ refined).filter
        (fun d => d.id == c.id && d.score == c.score)).head? = some c) :=
  merge_ok_aux (direct ++ semantic ++ refined).length _ le_rfl

/-- Witness for C2 on concrete strategy outputs with a duplicate
identifier across strategies: the Semantic copy of `"605-2"` carries a
strictly higher score and replaces the Direct copy, while `"3063-1"`
keeps its Direct occurrence against an equal-scoring Refined tie. -/
theorem mergeCandidates_spec_witness :
    mergeCandidates ([⟨"605-2", "Taxi", 3⟩, ⟨"3063-1", "Plane", 5⟩] ++
        [⟨"605-2", "Taxi", 7⟩] ++ [⟨"3063-1", "Plane", 5⟩]) =
      [⟨"605-2", "Taxi", 7⟩, ⟨"3063-1", "Plane", 5⟩] ∧
    ((mergeCandidates ([⟨"605-2", "Taxi", 3⟩, ⟨"3063-1", "Plane", 5⟩] ++
        [⟨"605-2", "Taxi", 7⟩] ++ [⟨"3063-1", "Plane", 5⟩])).map
      (fun c => c.id)).Nodup :=
  ⟨by decide,
   (mergeCandidates_spec [⟨"605-2", "Taxi", 3⟩, ⟨"3063-1", "Plane", 5⟩]
      [⟨"605-2", "Taxi", 7⟩] [⟨"3063-1", "Plane", 5⟩]).1⟩

/-! ## C9 / C10 — the LDraw asset route (`app/ldraw/[...key]/route.ts`,
reproduced in the repository README)

The route joins the catch-all key segments with `/`, strips loader
prefixes, and resolves candidate files under `ROOT` through `safeJoin`,
which throws on its path-traversal check.  Node's `path.join`/
`path.normalize` are modelled for absolute POSIX paths (ROOT is absolute
in the code): split on `/`, drop empty and `.` segments, resolve `..`
against the preceding segment (dropped at the root). -/

/-- Split a character list on `/`, keeping empty segments (as
`String.prototype.split` and Node's path parsing do). -/
def splitSlash : List Char → List (List Char)
  | [] => [[]]
  | c :: cs =>
    if c = '/' then [] :: splitSlash cs
    else
      match splitSlash cs with
      | [] => [[c]]
      | seg :: rest => (c :: seg) :: rest

/-- Join segments back with `/`. -/
def interSlash : List (List Char) → List Char
  | [] => []
  | [s] => s
  | s :: rest => s ++ '/' :: interSlash rest

/-- Segment-level POSIX path normalization: `..` pops the previous
segment, `.` and empty segments disappear (at the root, `..` is
dropped). -/
def normSegs (segs : List (List Char)) : List (List Char) :=
  segs.foldl
    (fun acc seg =>
      if seg = [] ∨ seg = ['.'] then acc
      else if seg = ['.', '.'] then acc.dropLast
      else acc ++ [seg])
    []

/-- Node `path.normalize` for an absolute POSIX path (no trailing
slash). -/
def normalizeAbs (s : String) : String :=
  ⟨'/' :: interSlash (normSegs (splitSlash s.data))⟩

/-- Node `path.normalize(path.join(root, ...segs))` as computed inside
`safeJoin`. -/
def joinPath (root : String) (segs : List String) : String :=
  normalizeAbs ⟨root.data ++ '/' :: interSlash (segs.map String.data)⟩

/-- `safeJoin` from the route: normalize the join and throw (`none`)
unless the result starts with the normalized root
(`p.startsWith(normalize(root))`). -/
def safeJoin (root : String) (segs : List String) : Option String :=
  let p := joinPath root segs
  if strStarts p (normalizeAbs root) then some p else none

/-- Case-insensitive character comparison, as under the regex `/i`
flag. -/
def charLowEq (a b : Char) : Bool := a.toLower == b.toLower

/-- Case-insensitively strip a literal pattern from the front of a
character list, returning the remainder on a match. -/
def stripCI : List Char → List Char → Option (List Char)
  | [], l => some l
  | _ :: _, [] => none
  | p :: ps, c :: cs => bif charLowEq c p then stripCI ps cs else none

def msChars : List Char := "models/".data

def ptChars : List Char := "parts/".data

def ppChars : List Char := "p/".data

/-- Second group `(parts|p)/` of the double-prefix regex. -/
def group2CI (l : List Char) : Bool :=
  (stripCI ptChars l).isSome || (stripCI ppChars l).isSome

/-- The double-prefix replace
`rel.replace(/^(models|parts|p)\/(parts|p)\//i, "$2/")`: when the key
starts with a first-group prefix followed by a second-group prefix, the
first-group prefix is dropped (the replacement `$2/` plus the remainder
is exactly the text after the first group). -/
def ldStripDouble (l : List Char) : List Char :=
  match stripCI msChars l with
  | some r => bif group2CI r then r else l
  | none =>
    match stripCI ptChars l with
    | some r => bif group2CI r then r else l
    | none =>
      match stripCI ppChars l with
      | some r => bif group2CI r then r else l
      | none => l

/-- The single-prefix replace `rel.replace(/^(models|parts|p)\//i, "")`.
The three alternatives are mutually exclusive as prefixes. -/
def ldStripSingle (l : List Char) : List Char :=
  match stripCI msChars l with
  | some r => r
  | none =>
    match stripCI ptChars l with
    | some r => r
    | none =>
      match stripCI ppChars l with
      | some r => r
      | none => l

/-- The route's primitive-name heuristic `looksPrimitive`: the base name
matches `/^(?:\d+-\d+|stud|box|rect|ring|con|cyli|cylo|edge|disc|ndis|tndis|chrd|filstud)/i`. -/
def primPats : List String :=
  ["stud", "box", "rect", "ring", "con", "cyli", "cylo", "edge", "disc",
   "ndis", "tndis", "chrd", "filstud"]

def afterDash : List Char → Bool
  | [] => false
  | c :: _ => c.isDigit

def digitsDash : List Char → Bool
  | [] => false
  | c :: cs => if c == '-' then afterDash cs else (c.isDigit && digitsDash cs)

/-- Does the name start with `\d+-\d+`? -/
def startsDigitsDash : List Char → Bool
  | [] => false
  | c :: cs => c.isDigit && digitsDash cs

def looksPrimitive (name : String) : Bool :=
  startsDigitsDash name.data ||
    primPats.any (fun p => (stripCI p.data name.data).isSome)

/-- `rel.split("/").pop() || rel` from the route. -/
def baseNameOf (rel : String) : String :=
  match (splitSlash rel.data).getLast? with
  | some last => if last = [] then rel else ⟨last⟩
  | none => rel

/-- The special case `/^ldconfig\.ldr$/i`. -/
def isLDConfig (rel : String) : Bool :=
  match stripCI "ldconfig.ldr".data rel.data with
  | some [] => true
  | _ => false

/-- The candidate file paths the route would open for a stripped key,
in probe order; `none` models the `safeJoin` exception aborting the
request (no file opened at all). -/
def resolveRel (root : String) (rel : String) : Option (List String) :=
  if isLDConfig rel then
    (safeJoin root ["LDConfig.ldr"]).map (fun p => [p])
  else if looksPrimitive (baseNameOf rel) then
    match safeJoin root ["p", rel], safeJoin root ["parts", rel] with
    | some p1, some p2 => some [p1, p2]
    | _, _ => none
  else if strStarts rel "s/" then
    (safeJoin root ["parts", rel]).map (fun p => [p])
  else
    match safeJoin root ["parts", rel], safeJoin root ["p", rel] with
    | some p1, some p2 => some [p1, p2]
    | _, _ => none

/-- The whole GET handler on the joined key string: prefix-stripping
normalization followed by candidate resolution. -/
def ldrawGet (root key : String) : Option (List String) :=
  resolveRel root ⟨ldStripSingle (ldStripDouble key.data)⟩

/-- C9: the `startsWith` check in `safeJoin` does not confine served
files to the ROOT directory.  For `ROOT = "/home/u/ldraw"` the key
`"../../ldrawXX/f.dat"` passes `safeJoin` (the normalized join
`"/home/u/ldrawXX/f.dat"` starts with the normalized root as a string)
and the route would open a file in the sibling directory
`/home/u/ldrawXX`, which is outside ROOT — it is neither ROOT itself nor
under `ROOT + "/"`. -/
theorem route_escapes_root :
    ldrawGet "/home/u/ldraw" "../../ldrawXX/f.dat" =
      some ["/home/u/ldrawXX/f.dat", "/home/u/ldrawXX/f.dat"] ∧
    strStarts "/home/u/ldrawXX/f.dat" ("/home/u/ldraw" ++ "/") = false ∧
    "/home/u/ldrawXX/f.dat" ≠ "/home/u/ldraw" := by
  refine ⟨?_, by decide, by decide⟩
  decide

/-- C10: for every relative path that does not itself begin with a
`models/`, `parts/` or `p/` segment (case-insensitively), prefixing the
request key with `parts/`, `p/`, `models/`, or the doubled `parts/parts/`
resolves to exactly the same candidate file list as the bare key: the
prefix-stripping normalization makes these keys equivalent before the
filesystem lookup. -/
theorem route_key_normalization (root rel : String)
    (h1 : stripCI msChars rel.data = none)
    (h2 : stripCI ptChars rel.data = none)
    (h3 : stripCI ppChars rel.data = none) :
    ldrawGet root ("parts/" ++ rel) = ldrawGet root rel ∧
    ldrawGet root ("p/" ++ rel) = ldrawGet root rel ∧
    ldrawGet root ("models/" ++ rel) = ldrawGet root rel ∧
    ldrawGet root ("parts/parts/" ++ rel) = ldrawGet root rel := by
  have hid : ldStripSingle (ldStripDouble rel.data) = rel.data := by
    simp [ldStripDouble, ldStripSingle, h1, h2, h3]
  have hms : ∀ L : List Char, stripCI msChars (ptChars ++ L) = none := fun _ => rfl
  have hpt : ∀ L : List Char, stripCI ptChars (ptChars ++ L) = some L := fun _ => rfl
  have hpp : ∀ L : List Char, stripCI ppChars (ptChars ++ L) = none := fun _ => rfl
  have hms2 : ∀ L : List Char, stripCI msChars (ppChars ++ L) = none := fun _ => rfl
  have hpt2 : ∀ L : List Char, stripCI ptChars (ppChars ++ L) = none := fun _ => rfl
  have hpp2 : ∀ L : List Char, stripCI ppChars (ppChars ++ L) = some L := fun _ => rfl
  have hms3 : ∀ L : List Char, stripCI msChars (msChars ++ L) = some L := fun _ => rfl
  have hg2 : group2CI rel.data = false := by
    simp [group2CI, h2, h3]
  refine ⟨?_, ?_, ?_, ?_⟩
  · have hdata : ("parts/" ++ rel).data = ptChars ++ rel.data :=
      String.data_append _ _
    simp only [ldrawGet, hdata, hid]
    have : ldStripSingle (ldStripDouble (ptChars ++ rel.data)) = rel.data := by
      simp [ldStripDouble, ldStripSingle, hms, hpt, hg2]
    rw [this]
  · have hdata : ("p/" ++ rel).data = ppChars ++ rel.data :=
      String.data_append _ _
    simp only [ldrawGet, hdata, hid]
    have : ldStripSingle (ldStripDouble (ppChars ++ rel.data)) = rel.data := by
      simp [ldStripDouble, ldStripSingle, hms2, hpt2, hpp2, hg2]
    rw [this]
  · have hdata : ("models/" ++ rel).data = msChars ++ rel.data :=
      String.data_append _ _
    simp only [ldrawGet, hdata, hid]
    have : ldStripSingle (ldStripDouble (msChars ++ rel.data)) = rel.data := by
      simp [ldStripDouble, ldStripSingle, hms3, hg2]
    rw [this]
  · have hdata : ("parts/parts/" ++ rel).data = ptChars ++ (ptChars ++ rel.data) := by
      have h := String.data_append "parts/parts/" rel
      have hsplit : ("parts/parts/").data = ptChars ++ ptChars := by decide
      rw [h, hsplit, List.append_assoc]
    simp only [ldrawGet, hdata, hid]
    have hthis : ldStripSingle (ldStripDouble (ptChars ++ (ptChars ++ rel.data)))
        = rel.data := by
      have hg2' : group2CI (ptChars ++ rel.data) = true := by
        simp [group2CI, hpt]
      simp [ldStripDouble, ldStripSingle, hms, hpt, hg2', hg2]
    rw [hthis]

/-- Witness for C10 at `root = "/r"`, `rel = "3001.dat"`. -/
theorem route_key_normalization_witness :
    ldrawGet "/r" ("parts/" ++ "3001.dat") = ldrawGet "/r" "3001.dat" ∧
    ldrawGet "/r" ("parts/parts/" ++ "3001.dat") = ldrawGet "/r" "3001.dat" :=
  ⟨(route_key_normalization "/r" "3001.dat" (by decide) (by decide)
      (by decide)).1,
   (route_key_normalization "/r" "3001.dat" (by decide) (by decide)
      (by decide)).2.2.2⟩

/-! ## C8 — `cleanFilename` (lego-builder.tsx lines 14-45)

The JavaScript regex pipeline is translated replace by replace:
`[{}()\[\]<>:"/\\|?*]` removal, `[\s,;]+` runs to a single underscore,
`['"]` removal, `[!?.]` removal, `_+` collapse, leading/trailing
underscore strip, then the emptiness/length guards. -/

/-- The character class removed first:
`{ } ( ) [ ] < > : " / \ | ? *`. -/
def isSpecialChar (c : Char) : Bool :=
  c == '{' || c == '}' || c == '(' || c == ')' || c == '[' || c == ']' ||
  c == '<' || c == '>' || c == ':' || c == '"' || c == '/' || c == '\\' ||
  c == '|' || c == '?' || c == '*'

/-- The separator class `[\s,;]` replaced by underscores. -/
def isSepChar (c : Char) : Bool := isSpaceJS c || c == ',' || c == ';'

/-- The apostrophe character (codepoint 39). -/
def apos : Char := Char.ofNat 39

/-- The quote class `['"]`. -/
def isQuoteChar (c : Char) : Bool := c == apos || c == '"'

/-- The punctuation class `[!?.]`. -/
def isPunctChar (c : Char) : Bool := c == '!' || c == '?' || c == '.'

/-- Underscore test used by the `_+` collapse and strips. -/
def isUnd (c : Char) : Bool := c == '_'

/-- Replace each maximal run of `p`-characters with a single `rep`
(regex `replace(/X+/g, rep)`); the Boolean records whether the scanner is
inside a run. -/
def collapseRunsAux (p : Char → Bool) (rep : Char) : Bool → List Char → List Char
  | _, [] => []
  | true, c :: cs =>
    if p c then collapseRunsAux p rep true cs
    else c :: collapseRunsAux p rep false cs
  | false, c :: cs =>
    if p c then rep :: collapseRunsAux p rep true cs
    else c :: collapseRunsAux p rep false cs

def collapseRuns (p : Char → Bool) (rep : Char) (l : List Char) : List Char :=
  collapseRunsAux p rep false l

/-- Executable check that no two consecutive characters are both
underscores. -/
def noDoubleUnd : List Char → Bool
  | [] => true
  | [_] => true
  | a :: b :: t => !(a == '_' && b == '_') && noDoubleUnd (b :: t)

theorem noDoubleUnd_of_chain : ∀ (l : List Char),
    List.Chain' (fun a b => ¬(a = '_' ∧ b = '_')) l → noDoubleUnd l = true := by
  intro l
  match l with
  | [] => intro _; rfl
  | [a] => intro _; rfl
  | a :: b :: t =>
    intro h
    rw [List.chain'_cons] at h
    have hr : noDoubleUnd (b :: t) = true := noDoubleUnd_of_chain (b :: t) h.2
    show (!(a == '_' && b == '_') && noDoubleUnd (b :: t)) = true
    rw [hr]
    have hab : (a == '_' && b == '_') = false := by
      by_cases ha : a = '_'
      · by_cases hb : b = '_'
        · exact absurd ⟨ha, hb⟩ h.1
        · simp [hb]
      · simp [ha]
    rw [hab]
    rfl

theorem collapseRunsAux_cons_true_pos {p : Char → Bool} {rep d : Char}
    {cs : List Char} (h : p d = true) :
    collapseRunsAux p rep true (d :: cs) = collapseRunsAux p rep true cs := by
  simp [collapseRunsAux, h]

theorem collapseRunsAux_cons_true_neg {p : Char → Bool} {rep d : Char}
    {cs : List Char} (h : p d = false) :
    collapseRunsAux p rep true (d :: cs) =
      d :: collapseRunsAux p rep false cs := by
  simp [collapseRunsAux, h]

theorem collapseRunsAux_cons_false_pos {p : Char → Bool} {rep d : Char}
    {cs : List Char} (h : p d = true) :
    collapseRunsAux p rep false (d :: cs) =
      rep :: collapseRunsAux p rep true cs := by
  simp [collapseRunsAux, h]

theorem collapseRunsAux_cons_false_neg {p : Char → Bool} {rep d : Char}
    {cs : List Char} (h : p d = false) :
    collapseRunsAux p rep false (d :: cs) =
      d :: collapseRunsAux p rep false cs := by
  simp [collapseRunsAux, h]

/-- `clean.replace(/[{}()\[\]<>:"/\\|?*]/g, '')`. -/
def step1 (l : List Char) : List Char := l.filter (fun c => !(isSpecialChar c))

/-- `clean.replace(/[\s,;]+/g, '_')`. -/
def step2 (l : List Char) : List Char := collapseRuns isSepChar '_' (step1 l)

/-- `clean.replace(/['"]/g, '')`. -/
def step3 (l : List Char) : List Char :=
  (step2 l).filter (fun c => !(isQuoteChar c))

/-- `clean.replace(/[!?.]/g, '')`. -/
def step4 (l : List Char) : List Char :=
  (step3 l).filter (fun c => !(isPunctChar c))

/-- `clean.replace(/_+/g, '_')`. -/
def step5 (l : List Char) : List Char := collapseRuns isUnd '_' (step4 l)

/-- `clean.replace(/^_+|_+$/g, '')`. -/
def cleanSteps (l : List Char) : List Char :=
  ((step5 l).dropWhile isUnd).rdropWhile isUnd

/-- `cleanFilename` from lego-builder.tsx: the sanitization pipeline
followed by the emptiness fallback to `"model"` and the
truncate-to-50-then-strip-trailing-underscores guard. -/
def cleanFilename (s : String) : String :=
  if cleanSteps s.data = [] then "model"
  else if 50 < (cleanSteps s.data).length then
    ⟨((cleanSteps s.data).take 50).rdropWhile isUnd⟩
  else ⟨cleanSteps s.data⟩

theorem collapseRunsAux_mem (p : Char → Bool) (rep : Char) :
    ∀ (l : List Char) (b : Bool) (c : Char),
      c ∈ collapseRunsAux p rep b l → c = rep ∨ (c ∈ l ∧ p c = false) := by
  intro l
  induction l with
  | nil =>
    intro b c hc
    cases b <;> simp [collapseRunsAux] at hc
  | cons d cs ih =>
    intro b c hc
    by_cases hd : p d = true
    · cases b with
      | true =>
        rw [collapseRunsAux_cons_true_pos hd] at hc
        rcases ih true c hc with h | ⟨hm, hp⟩
        · exact Or.inl h
        · exact Or.inr ⟨List.mem_cons_of_mem _ hm, hp⟩
      | false =>
        rw [collapseRunsAux_cons_false_pos hd] at hc
        rcases List.mem_cons.mp hc with h | h
        · exact Or.inl h
        · rcases ih true c h with h2 | ⟨hm, hp⟩
          · exact Or.inl h2
          · exact Or.inr ⟨List.mem_cons_of_mem _ hm, hp⟩
    · have hdf : p d = false := Bool.eq_false_iff.mpr hd
      cases b with
      | true =>
        rw [collapseRunsAux_cons_true_neg hdf] at hc
        rcases List.mem_cons.mp hc with h | h
        · exact Or.inr ⟨by rw [h]; exact List.mem_cons_self _ _, by rw [h]; exact hdf⟩
        · rcases ih false c h with h2 | ⟨hm, hp⟩
          · exact Or.inl h2
          · exact Or.inr ⟨List.mem_cons_of_mem _ hm, hp⟩
      | false =>
        rw [collapseRunsAux_cons_false_neg hdf] at hc
        rcases List.mem_cons.mp hc with h | h
        · exact Or.inr ⟨by rw [h]; exact List.mem_cons_self _ _, by rw [h]; exact hdf⟩
        · rcases ih false c h with h2 | ⟨hm, hp⟩
          · exact Or.inl h2
          · exact Or.inr ⟨List.mem_cons_of_mem _ hm, hp⟩

theorem collapseRunsAux_head_true (p : Char → Bool) (rep : Char) :
    ∀ (l : List Char) (c : Char),
      (collapseRunsAux p rep true l).head? = some c → p c = false := by
  intro l
  induction l with
  | nil =>
    intro c hc
    simp [collapseRunsAux] at hc
  | cons d cs ih =>
    intro c hc
    by_cases hd : p d = true
    · rw [collapseRunsAux_cons_true_pos hd] at hc
      exact ih c hc
    · have hdf : p d = false := Bool.eq_false_iff.mpr hd
      rw [collapseRunsAux_cons_true_neg hdf, List.head?_cons] at hc
      rw [← Option.some.inj hc]
      exact hdf

theorem collapseRunsAux_chain (p : Char → Bool) (rep : Char) :
    ∀ (l : List Char) (b : Bool),
      List.Chain' (fun a b' => ¬(p a = true ∧ p b' = true))
        (collapseRunsAux p rep b l) := by
  intro l
  induction l with
  | nil =>
    intro b
    cases b <;> simp [collapseRunsAux]
  | cons d cs ih =>
    intro b
    by_cases hd : p d = true
    · cases b with
      | true =>
        rw [collapseRunsAux_cons_true_pos hd]
        exact ih true
      | false =>
        rw [collapseRunsAux_cons_false_pos hd]
        rw [List.chain'_cons']
        refine ⟨?_, ih true⟩
        intro y hy
        have hyf : p y = false := collapseRunsAux_head_true p rep cs y hy
        rintro ⟨_, hy2⟩
        rw [hyf] at hy2
        exact Bool.noConfusion hy2
    · have hdf : p d = false := Bool.eq_false_iff.mpr hd
      cases b with
      | true =>
        rw [collapseRunsAux_cons_true_neg hdf]
        rw [List.chain'_cons']
        refine ⟨?_, ih false⟩
        intro y _
        rintro ⟨hd2, _⟩
        exact hd hd2
      | false =>
        rw [collapseRunsAux_cons_false_neg hdf]
        rw [List.chain'_cons']
        refine ⟨?_, ih false⟩
        intro y _
        rintro ⟨hd2, _⟩
        exact hd hd2

theorem head_dropWhile_false (p : Char → Bool) (l : List Char) (c : Char)
    (h : (l.dropWhile p).head? = some c) : p c = false := by
  have hm := List.head?_dropWhile_not p l
  rw [h] at hm
  exact hm

theorem isPre_head?_eq {l₁ l₂ : List Char} (h : l₁ <+: l₂) (hne : l₁ ≠ []) :
    l₂.head? = l₁.head? := by
  obtain ⟨t, ht⟩ := h
  rw [← ht, List.head?_append]
  match l₁, hne with
  | a :: w, _ => rfl

/-- Every character of the fully sanitized list avoids all four removed
classes (the underscore replacement character avoids them as well). -/
theorem mem_step5_clean (l : List Char) (c : Char) (hc : c ∈ step5 l) :
    isSpecialChar c = false ∧ isSepChar c = false ∧
    isQuoteChar c = false ∧ isPunctChar c = false := by
  rcases collapseRunsAux_mem isUnd '_' (step4 l) false c hc with hrep | ⟨hm4, _⟩
  · subst hrep
    exact ⟨by decide, by decide, by decide, by decide⟩
  · have hp : isPunctChar c = false := by
      simpa using List.of_mem_filter hm4
    have hm3 : c ∈ step3 l := List.mem_of_mem_filter hm4
    have hq : isQuoteChar c = false := by
      simpa using List.of_mem_filter hm3
    have hm2 : c ∈ step2 l := List.mem_of_mem_filter hm3
    rcases collapseRunsAux_mem isSepChar '_' (step1 l) false c hm2 with
      hrep | ⟨hm1, hsep⟩
    · subst hrep
      exact ⟨by decide, by decide, by decide, by decide⟩
    · have hspec : isSpecialChar c = false := by
        simpa using List.of_mem_filter hm1
      exact ⟨hspec, hsep, hq, hp⟩

theorem chain_step5 (l : List Char) :
    List.Chain' (fun a b => ¬(a = '_' ∧ b = '_')) (step5 l) := by
  have h := collapseRunsAux_chain isUnd '_' (step4 l) false
  refine h.imp ?_
  intro a b hab
  rintro ⟨ha, hb⟩
  exact hab ⟨by rw [ha]; decide, by rw [hb]; decide⟩

theorem cleanSteps_subset (l : List Char) : cleanSteps l ⊆ step5 l := by
  intro c hc
  have h1 : c ∈ (step5 l).dropWhile isUnd :=
    List.IsPrefix.subset ( List.rdropWhile_prefix isUnd _) hc
  exact (List.dropWhile_suffix isUnd).subset h1

theorem cleanSteps_chain (l : List Char) :
    List.Chain' (fun a b => ¬(a = '_' ∧ b = '_')) (cleanSteps l) :=
  List.Chain'.prefix
    ((chain_step5 l).suffix (List.dropWhile_suffix isUnd))
    ( List.rdropWhile_prefix isUnd _)

theorem cleanSteps_head? (l : List Char) (c : Char)
    (h : (cleanSteps l).head? = some c) : c ≠ '_' := by
  have hne : cleanSteps l ≠ [] := by
    intro hnil
    rw [hnil] at h
    exact Option.noConfusion h
  have hpre := List.rdropWhile_prefix isUnd ((step5 l).dropWhile isUnd)
  have heq : ((step5 l).dropWhile isUnd).head? = (cleanSteps l).head? :=
    isPre_head?_eq hpre hne
  have : isUnd c = false := head_dropWhile_false isUnd (step5 l) c (by rw [heq, h])
  intro hc
  rw [hc] at this
  exact Bool.noConfusion this

theorem cleanSteps_getLast? (l : List Char) (c : Char)
    (h : (cleanSteps l).getLast? = some c) : c ≠ '_' := by
  have hne : cleanSteps l ≠ [] := by
    intro hnil
    rw [hnil] at h
    exact Option.noConfusion h
  have hlast := List.rdropWhile_last_not isUnd ((step5 l).dropWhile isUnd) hne
  have hsome : (cleanSteps l).getLast? = some ((cleanSteps l).getLast hne) :=
    List.getLast?_eq_getLast _ hne
  rw [h] at hsome
  intro hc
  apply hlast
  show isUnd ((cleanSteps l).getLast hne) = true
  rw [← Option.some.inj hsome, hc]
  decide

/-- C8: for every input string, `cleanFilename` returns a non-empty
string of length at most 50 whose characters avoid every removed class
(special characters, whitespace and separators, quotes, punctuation),
with no two consecutive underscores, neither beginning nor ending with an
underscore; an input that sanitizes to empty yields the literal
`"model"`. -/
theorem cleanFilename_spec (s : String) :
    cleanFilename s ≠ "" ∧
    (cleanFilename s).length ≤ 50 ∧
    (∀ c ∈ (cleanFilename s).data,
      isSpecialChar c = false ∧ isSepChar c = false ∧
      isQuoteChar c = false ∧ isPunctChar c = false) ∧
    noDoubleUnd (cleanFilename s).data = true ∧
    (cleanFilename s).data.head? ≠ some '_' ∧
    (cleanFilename s).data.getLast? ≠ some '_' ∧
    (cleanSteps s.data = [] → cleanFilename s = "model") := by
  by_cases h0 : cleanSteps s.data = []
  · have hcf : cleanFilename s = "model" := by
      simp [cleanFilename, h0]
    rw [hcf]
    exact ⟨by decide, by decide, by decide, by decide, by decide, by decide,
      fun _ => rfl⟩
  · by_cases h50 : 50 < (cleanSteps s.data).length
    · have hcf : cleanFilename s =
          ⟨((cleanSteps s.data).take 50).rdropWhile isUnd⟩ := by
        simp [cleanFilename, h0, h50]
      have hdata : (cleanFilename s).data =
          ((cleanSteps s.data).take 50).rdropWhile isUnd := by
        rw [hcf]
      have hpre1 : ((cleanSteps s.data).take 50).rdropWhile isUnd <+:
          (cleanSteps s.data).take 50 := List.rdropWhile_prefix _ _
      have hpre2 : (cleanSteps s.data).take 50 <+: cleanSteps s.data :=
        List.take_prefix _ _
      obtain ⟨a, rest, hcons⟩ := List.exists_cons_of_ne_nil h0
      have hhead : (cleanSteps s.data).head? = some a := by
        rw [hcons]
        rfl
      have hane : a ≠ '_' := cleanSteps_head? s.data a hhead
      have htake_cons : (cleanSteps s.data).take 50 = a :: rest.take 49 := by
        rw [hcons]
        rfl
      have hne : ((cleanSteps s.data).take 50).rdropWhile isUnd ≠ [] := by
        intro hnil
        have hall := List.rdropWhile_eq_nil_iff.mp hnil
        have := hall a (by rw [htake_cons]; exact List.mem_cons_self _ _)
        rw [show isUnd a = false from ?_] at this
        · exact Bool.noConfusion this
        · have : ¬(a == '_') = true := by
            intro hb
            exact hane (by simpa using hb)
          exact Bool.eq_false_iff.mpr this
      refine ⟨?_, ?_, ?_, ?_, ?_, ?_, fun hc => absurd hc h0⟩
      · intro hempty
        apply hne
        rw [← hdata, hempty]
      · show (cleanFilename s).data.length ≤ 50
        rw [hdata]
        calc (((cleanSteps s.data).take 50).rdropWhile isUnd).length
            ≤ ((cleanSteps s.data).take 50).length := hpre1.length_le
          _ ≤ 50 := by
              rw [List.length_take]
              exact min_le_left _ _
      · intro c hc
        rw [hdata] at hc
        exact mem_step5_clean s.data c
          (cleanSteps_subset s.data (hpre2.subset (hpre1.subset hc)))
      · rw [hdata]
        exact noDoubleUnd_of_chain _
          ( List.Chain'.prefix ( List.Chain'.prefix (cleanSteps_chain s.data) hpre2) hpre1)
      · rw [hdata]
        have hh : (cleanSteps s.data).head? =
            (((cleanSteps s.data).take 50).rdropWhile isUnd).head? := by
          rw [isPre_head?_eq hpre2 (by rw [htake_cons]; exact List.cons_ne_nil _ _)]
          exact isPre_head?_eq hpre1 hne
        intro hbad
        have hcontr : some a = some '_' := by
          rw [← hhead, hh, hbad]
        exact hane (Option.some.inj hcontr)
      · rw [hdata]
        intro hbad
        have hlast := List.rdropWhile_last_not isUnd ((cleanSteps s.data).take 50) hne
        have hsome : (((cleanSteps s.data).take 50).rdropWhile isUnd).getLast? =
            some ((((cleanSteps s.data).take 50).rdropWhile isUnd).getLast hne) :=
          List.getLast?_eq_getLast _ hne
        rw [hbad] at hsome
        apply hlast
        show isUnd _ = true
        rw [← Option.some.inj hsome]
        decide
    · have hcf : cleanFilename s = ⟨cleanSteps s.data⟩ := by
        simp [cleanFilename, h0, h50]
      have hdata : (cleanFilename s).data = cleanSteps s.data := by
        rw [hcf]
      refine ⟨?_, ?_, ?_, ?_, ?_, ?_, fun hc => absurd hc h0⟩
      · intro hempty
        apply h0
        rw [← hdata]
        rw [hempty]
      · show (cleanFilename s).data.length ≤ 50
        rw [hdata]
        omega
      · intro c hc
        rw [hdata] at hc
        exact mem_step5_clean s.data c (cleanSteps_subset s.data hc)
      · rw [hdata]
        exact noDoubleUnd_of_chain _ (cleanSteps_chain s.data)
      · rw [hdata]
        intro hbad
        exact cleanSteps_head? s.data '_' hbad rfl
      · rw [hdata]
        intro hbad
        exact cleanSteps_getLast? s.data '_' hbad rfl

/-- Witness for C8 at the concrete input `"  Fire Truck!! (v2)  "`,
which sanitizes to `"Fire_Truck_v2"`. -/
theorem cleanFilename_spec_witness :
    cleanFilename "  Fire Truck!! (v2)  " = "Fire_Truck_v2" ∧
    cleanFilename "  Fire Truck!! (v2)  " ≠ "" ∧
    (cleanFilename "  Fire Truck!! (v2)  ").data.head? ≠ some '_' ∧
    (cleanFilename "  Fire Truck!! (v2)  ").data.getLast? ≠ some '_' :=
  ⟨by decide,
   (cleanFilename_spec "  Fire Truck!! (v2)  ").1,
   (cleanFilename_spec "  Fire Truck!! (v2)  ").2.2.2.2.1,
   (cleanFilename_spec "  Fire Truck!! (v2)  ").2.2.2.2.2.1⟩

end BrickKit
